import Mathlib

/-!
Shallow embedding of `.github/scripts/ci-build-matrix.py`.

The script discovers build elements that are not yet cached, partitions them
into a "core" group and round-robin "leaf" chunks, names each chunk and
computes a composite SHA-256 cache key per chunk.

The embedding models the Python string primitives the script relies on
(`str.strip`, `str.split`, `str.replace`, `str.rsplit("/", 1)[-1]`,
`"sep".join`, `sorted` on strings, `hashlib.sha256(...).hexdigest()`) as
executable Lean functions on `List Char` / `Nat`, and the script's functions
(`get_build_plan`'s parsing loop, `chunk_list`, `make_chunk_name`,
`compute_cache_key`, `main`) as Lean functions over those primitives.
All definitions are structural recursions, so they evaluate inside the
kernel on concrete inputs.
-/

/-! ### Python string primitives -/

/-- Whitespace trimming at both ends, modelling Python `str.strip()`
(restricted to the ASCII whitespace characters covered by
`Char.isWhitespace`; the script's inputs contain no exotic whitespace). -/
def pyStrip (s : String) : String :=
  ⟨((s.data.dropWhile Char.isWhitespace).reverse.dropWhile Char.isWhitespace).reverse⟩

/-- Split a character list at each non-overlapping, leftmost-first occurrence
of `sep`, modelling Python `str.split(sep)` for a non-empty separator.
`fuel` is an upper bound on the recursion depth; callers pass the length of
the list, which is always sufficient because each step consumes at least one
character. -/
def splitFuel (sep : List Char) : Nat → List Char → List (List Char)
  | _, [] => [[]]
  | 0, l => [l]
  | fuel + 1, c :: rest =>
    if sep ≠ [] ∧ sep.isPrefixOf (c :: rest) then
      [] :: splitFuel sep fuel (rest.drop (sep.length - 1))
    else
      match splitFuel sep fuel rest with
      | [] => [[c]]
      | g :: gs => (c :: g) :: gs

/-- Python `s.split(sep)` for a non-empty separator string. -/
def pySplit (s sep : String) : List String :=
  (splitFuel sep.data s.data.length s.data).map (fun g => ⟨g⟩)

/-- Replace each non-overlapping, leftmost-first occurrence of `old` by
`new`, modelling Python `str.replace(old, new)` for non-empty `old`.
Fuel as in `splitFuel`. -/
def replaceFuel (old new : List Char) : Nat → List Char → List Char
  | _, [] => []
  | 0, l => l
  | fuel + 1, c :: rest =>
    if old ≠ [] ∧ old.isPrefixOf (c :: rest) then
      new ++ replaceFuel old new fuel (rest.drop (old.length - 1))
    else
      c :: replaceFuel old new fuel rest

/-- Python `s.replace(old, new)`. -/
def pyReplace (s old new : String) : String :=
  ⟨replaceFuel old.data new.data s.data.length s.data⟩

/-- The suffix of `s` after the last occurrence of the character `sep`
(the whole string when `sep` does not occur), modelling Python
`s.rsplit(sep, 1)[-1]` for a one-character separator. -/
def pyRsplitLast (s : String) (sep : Char) : String :=
  ⟨(s.data.reverse.takeWhile (fun c => c != sep)).reverse⟩

/-- Concatenate the character lists in `parts` with `sep` between
consecutive entries. -/
def joinChars (sep : List Char) : List (List Char) → List Char
  | [] => []
  | [x] => x
  | x :: y :: xs => x ++ sep ++ joinChars sep (y :: xs)

/-- Python `sep.join(parts)`. -/
def pyJoin (sep : String) (parts : List String) : String :=
  ⟨joinChars sep.data (parts.map String.data)⟩

/-- Lexicographic comparison of character lists by code point, modelling
Python's `<=` on strings. -/
def charListLe : List Char → List Char → Bool
  | [], _ => true
  | _ :: _, [] => false
  | a :: as, b :: bs =>
    if a.toNat < b.toNat then true
    else if b.toNat < a.toNat then false
    else charListLe as bs

/-- Python's `<=` on strings, as a Bool-valued function. -/
def strLeB (s t : String) : Bool := charListLe s.data t.data

/-- Python's `<=` on strings, as a relation for sorting. -/
def pyStrLe (s t : String) : Prop := strLeB s t = true

instance : DecidableRel pyStrLe := fun s t => instDecidableEqBool (strLeB s t) true

/-! ### SHA-256 (`hashlib.sha256(...).hexdigest()`), on `Nat` words -/

/-- Rotate a 32-bit word right by `r` bits. -/
def rotr32 (r x : Nat) : Nat := x / 2 ^ r + x % 2 ^ r * 2 ^ (32 - r)

/-- SHA-256 choice function `Ch(e,f,g)`; `4294967295 - e` is the 32-bit
complement of `e`. -/
def shaCh (e f g : Nat) : Nat := (e &&& f) ^^^ ((4294967295 - e) &&& g)

/-- SHA-256 majority function `Maj(a,b,c)`. -/
def shaMaj (a b c : Nat) : Nat := (a &&& b) ^^^ (a &&& c) ^^^ (b &&& c)

/-- SHA-256 big sigma-0. -/
def shaS0 (a : Nat) : Nat := rotr32 2 a ^^^ rotr32 13 a ^^^ rotr32 22 a

/-- SHA-256 big sigma-1. -/
def shaS1 (e : Nat) : Nat := rotr32 6 e ^^^ rotr32 11 e ^^^ rotr32 25 e

/-- SHA-256 small sigma-0; `x / 8` is the logical shift right by 3. -/
def shas0 (x : Nat) : Nat := rotr32 7 x ^^^ rotr32 18 x ^^^ x / 8

/-- SHA-256 small sigma-1; `x / 1024` is the logical shift right by 10. -/
def shas1 (x : Nat) : Nat := rotr32 17 x ^^^ rotr32 19 x ^^^ x / 1024

/-- The 64 SHA-256 round constants (FIPS 180-4), in decimal: these are the
words 0x428a2f98, 0x71374491, ..., 0xc67178f2. -/
def shaK : List Nat :=
  [1116352408, 1899447441, 3049323471, 3921009573, 961987163, 1508970993,
   2453635748, 2870763221, 3624381080, 310598401, 607225278, 1426881987,
   1925078388, 2162078206, 2614888103, 3248222580, 3835390401, 4022224774,
   264347078, 604807628, 770255983, 1249150122, 1555081692, 1996064986,
   2554220882, 2821834349, 2952996808, 3210313671, 3336571891, 3584528711,
   113926993, 338241895, 666307205, 773529912, 1294757372, 1396182291,
   1695183700, 1986661051, 2177026350, 2456956037, 2730485921, 2820302411,
   3259730800, 3345764771, 3516065817, 3600352804, 4094571909, 275423344,
   430227734, 506948616, 659060556, 883997877, 958139571, 1322822218,
   1537002063, 1747873779, 1955562222, 2024104815, 2227730452, 2361852424,
   2428436474, 2756734187, 3204031479, 3329325298]

/-- The eight SHA-256 initial hash words (FIPS 180-4), in decimal: these are
0x6a09e667, 0xbb67ae85, 0x3c6ef372, 0xa54ff53a, 0x510e527f, 0x9b05688c,
0x1f83d9ab, 0x5be0cd19. -/
def shaH0 : List Nat :=
  [1779033703, 3144134277, 1013904242, 2773480762,
   1359893119, 2600822924, 528734635, 1541459225]

/-- Big-endian byte expansion of `x` into `nbytes` bytes. -/
def toBEBytes (nbytes x : Nat) : List Nat :=
  (List.range nbytes).map (fun i => x / 2 ^ (8 * (nbytes - 1 - i)) % 256)

/-- SHA-256 message padding: append `0x80`, zero bytes up to 56 mod 64, and
the 8-byte big-endian bit length. -/
def shaPad (msg : List Nat) : List Nat :=
  msg ++ 128 :: List.replicate ((119 - msg.length % 64) % 64) 0 ++ toBEBytes 8 (msg.length * 8)

/-- Split a padded message (whose length is a multiple of 64) into 64-byte
blocks. -/
def shaBlocks (l : List Nat) : List (List Nat) :=
  (List.range (l.length / 64)).map (fun i => (l.drop (64 * i)).take 64)

/-- Parse a 64-byte block as 16 big-endian 32-bit words. -/
def shaWords (block : List Nat) : List Nat :=
  (List.range 16).map (fun i =>
    block.getD (4 * i) 0 * 16777216 + block.getD (4 * i + 1) 0 * 65536 +
    block.getD (4 * i + 2) 0 * 256 + block.getD (4 * i + 3) 0)

/-- Extend 16 message-schedule words to 64. -/
def shaExtend (w0 : List Nat) : List Nat :=
  (List.range 48).foldl (fun w _ =>
    w ++ [(shas1 (w.getD (w.length - 2) 0) + w.getD (w.length - 7) 0 +
           shas0 (w.getD (w.length - 15) 0) + w.getD (w.length - 16) 0) % 4294967296]) w0

/-- One SHA-256 compression round; the state is the working-variable list
`[a, b, c, d, e, f, g, h]` and `kw` is the pair of round constant and
schedule word. -/
def shaRound (st : List Nat) (kw : Nat × Nat) : List Nat :=
  match st with
  | [a, b, c, d, e, f, g, h] =>
    let t1 := (h + shaS1 e + shaCh e f g + kw.1 + kw.2) % 4294967296
    let t2 := (shaS0 a + shaMaj a b c) % 4294967296
    [(t1 + t2) % 4294967296, a, b, c, (d + t1) % 4294967296, e, f, g]
  | _ => st

/-- SHA-256 compression of one block into the running hash. -/
def shaCompress (h : List Nat) (block : List Nat) : List Nat :=
  let w := shaExtend (shaWords block)
  let st := (shaK.zip w).foldl shaRound h
  (h.zip st).map (fun p => (p.1 + p.2) % 4294967296)

/-- SHA-256 of a byte list, as eight 32-bit hash words. -/
def sha256Words (msg : List Nat) : List Nat :=
  (shaBlocks (shaPad msg)).foldl shaCompress shaH0

/-- Lowercase hex digit. -/
def hexChar (n : Nat) : Char := "0123456789abcdef".data.getD n '0'

/-- Lowercase 8-digit hex rendering of a 32-bit word. -/
def wordHex (x : Nat) : List Char := (List.range 8).map (fun i => hexChar (x / 2 ^ (4 * (7 - i)) % 16))

/-- UTF-8 encoding of a code point, modelling Python `str.encode()`. -/
def utf8Encode (c : Nat) : List Nat :=
  if c < 128 then [c]
  else if c < 2048 then [192 + c / 64, 128 + c % 64]
  else if c < 65536 then [224 + c / 4096, 128 + c / 64 % 64, 128 + c % 64]
  else [240 + c / 262144, 128 + c / 4096 % 64, 128 + c / 64 % 64, 128 + c % 64]

/-- UTF-8 bytes of a string. -/
def strBytes (s : String) : List Nat := (s.data.map (fun ch => utf8Encode ch.toNat)).flatten

/-- Python `hashlib.sha256(s.encode()).hexdigest()`. -/
def sha256_hex (s : String) : String := ⟨((sha256Words (strBytes s)).map wordHex).flatten⟩

/-! ### The script's data model -/

/-- One build element as collected by `get_build_plan`:
`{"name": ..., "state": ..., "key": ...}`. -/
structure Element where
  name : String
  state : String
  key : String
deriving DecidableEq

/-- The JSON structure printed by `main`. Python dicts preserve insertion
order, so the two dict fields are modelled as association lists in insertion
order. -/
structure BuildMatrixResult where
  core : String
  matrix : List (String × String)
  cache_keys : List (String × String)
  final : String
deriving DecidableEq

/-! ### `get_build_plan`: the parsing / filtering loop -/

/-- One iteration of the line loop in `get_build_plan`, returning the
element appended to `elements` (if any) together with the diagnostics the
iteration prints to stderr.

Mirrors:
empty or all-whitespace lines are skipped (`if not line.strip(): continue`);
lines with fewer than two `"||"`-separated fields are skipped
(`if len(parts) < 2: continue`); otherwise name and state (and the optional
third field, the key) are stripped, and the element is kept only when its
state differs from `"cached"`.

The `except (ValueError, IndexError)` handler, which is what would print the
`"Skipping malformed line"` diagnostic, is unreachable: `split`, `strip` and
the length-guarded indexing in the loop body are total and raise neither
`ValueError` nor `IndexError`. The diagnostics component is therefore empty
on every branch. -/
def line_result (line : String) : Option Element × List String :=
  if pyStrip line = "" then (none, [])
  else
    let parts := pySplit line "||"
    if parts.length < 2 then (none, [])
    else
      let name := pyStrip (parts.getD 0 "")
      let state := pyStrip (parts.getD 1 "")
      let full_key := if 2 < parts.length then pyStrip (parts.getD 2 "") else ""
      (if state ≠ "cached" then some ⟨name, state, full_key⟩ else none, [])

/-- The parsing / filtering loop of `get_build_plan` over the lines of
`bst show` output: the retained elements in order, and all diagnostics
printed to stderr. -/
def get_build_plan (lines : List String) : List Element × List String :=
  (lines.filterMap (fun l => (line_result l).1),
   (lines.map (fun l => (line_result l).2)).flatten)

/-! ### `chunk_list` and the core / leaf split -/

/-- Python extended slice `data[i::step]` for `step ≥ 1`: the elements at
indices `i, i + step, i + 2 * step, ...`, in order. -/
def sliceEvery {α : Type} (data : List α) (i step : Nat) : List α :=
  ((List.range data.length).filter (fun j => decide (i ≤ j ∧ (j - i) % step = 0))).filterMap
    (fun j => data[j]?)

/-- The script's `chunk_list`: `[data[i::num_chunks] for i in range(num_chunks)]`.
A non-positive `num_chunks` gives an empty `range`, hence no chunks, exactly
as in Python. -/
def chunk_list {α : Type} (data : List α) (num_chunks : Int) : List (List α) :=
  (List.range num_chunks.toNat).map (fun i => sliceEvery data i num_chunks.toNat)

/-- Python slice `l[:k]`, including the negative-index convention. -/
def pyTake {α : Type} (l : List α) (k : Int) : List α :=
  if 0 ≤ k then l.take k.toNat else l.take (l.length - (-k).toNat)

/-- Python slice `l[k:]`, including the negative-index convention. -/
def pyDrop {α : Type} (l : List α) (k : Int) : List α :=
  if 0 ≤ k then l.drop k.toNat else l.drop (l.length - (-k).toNat)

/-- `elements[:core_split]` in `main`. -/
def core_elements (elements : List Element) (core_split : Int) : List Element :=
  pyTake elements core_split

/-- `elements[core_split:]` in `main`. -/
def leaf_elements (elements : List Element) (core_split : Int) : List Element :=
  pyDrop elements core_split

/-- The chunk list built by `main`:
`chunk_list(leaf_elements, min(num_chunks, len(leaf_elements)))` when the
leaf group is non-empty and `num_chunks > 0`, else no chunks. -/
def chunks_of (elements : List Element) (num_chunks core_split : Int) : List (List Element) :=
  let leaf := leaf_elements elements core_split
  if leaf ≠ [] ∧ 0 < num_chunks then chunk_list leaf (min num_chunks (leaf.length : Int))
  else []

/-! ### `make_chunk_name` and `compute_cache_key` -/

/-- The script's `make_chunk_name`: label the chunk after its first element,
keeping only the part after the last `/` and applying
`.replace(".bst", "")`, which removes every occurrence of `".bst"`. -/
def make_chunk_name (index : Nat) (elements : List Element) : String :=
  match elements with
  | [] => "chunk" ++ Nat.repr index
  | first :: _ =>
    "chunk" ++ Nat.repr index ++ "-" ++ pyReplace (pyRsplitLast first.name '/') ".bst" ""

/-- Modelled from the spec: chunk naming as §4.4 words it, with the `".bst"`
suffix stripped only when the last path segment ends with it. Declared for
comparison with the source-derived `make_chunk_name`. -/
def make_chunk_name_spec (index : Nat) (elements : List Element) : String :=
  match elements with
  | [] => "chunk" ++ Nat.repr index
  | first :: _ =>
    let seg := pyRsplitLast first.name '/'
    let label := if ".bst".data.isSuffixOf seg.data then ⟨seg.data.take (seg.data.length - 4)⟩ else seg
    "chunk" ++ Nat.repr index ++ "-" ++ label

/-- The script's `compute_cache_key`: the non-empty `key` fields, sorted,
joined with newlines and hashed; the empty string when no element has a
non-empty key. -/
def compute_cache_key (elements : List Element) : String :=
  let keys := List.insertionSort pyStrLe ((elements.map Element.key).filter (fun k => k != ""))
  if keys = [] then ""
  else sha256_hex (pyJoin "\n" keys)

/-! ### The matrix-building loop in `main` -/

/-- Python dict assignment `d[k] = v` on an insertion-ordered association
list: overwrite in place when the key is present, append otherwise. -/
def dict_insert (d : List (String × String)) (k v : String) : List (String × String) :=
  if k ∈ d.map Prod.fst then d.map (fun p => if p.1 = k then (k, v) else p)
  else d ++ [(k, v)]

/-- The `for i, chunk in enumerate(chunks)` loop of `main`, carrying the
`matrix` and `cache_keys` dicts: empty chunks are skipped, every processed
chunk is entered into `matrix`, and into `cache_keys` only when its
composite key is non-empty. -/
def chunks_fold : List (String × String) → List (String × String) →
    List (Nat × List Element) → List (String × String) × List (String × String)
  | m, ck, [] => (m, ck)
  | m, ck, (i, chunk) :: rest =>
    if chunk.isEmpty then chunks_fold m ck rest
    else
      let nm := make_chunk_name i chunk
      let m' := dict_insert m nm (pyJoin " " (chunk.map Element.name))
      let key := compute_cache_key chunk
      let ck' := if key = "" then ck else dict_insert ck nm key
      chunks_fold m' ck' rest

/-- The matrix-building loop of `main` over the enumerated chunk list. -/
def process_chunks (chunks : List (List Element)) :
    List (String × String) × List (String × String) :=
  chunks_fold [] [] chunks.enum

/-- `main` after argument parsing and plan retrieval: from the filtered
element list, the requested `num_chunks` and `core_split`, build the output
structure. -/
def main_result (target : String) (num_chunks core_split : Int) (elements : List Element) :
    BuildMatrixResult :=
  if elements = [] then ⟨"", [], [], target⟩
  else
    let core_targets := pyJoin " " ((core_elements elements core_split).map Element.name)
    let mc := process_chunks (chunks_of elements num_chunks core_split)
    ⟨core_targets, mc.1, mc.2, target⟩

/-- The whole script on given `bst show` output lines: parse and filter,
then partition. -/
def full_pipeline (target : String) (num_chunks core_split : Int) (lines : List String) :
    BuildMatrixResult :=
  main_result target num_chunks core_split (get_build_plan lines).1

/-! ### Proof-support definitions -/

/-- Decimal digit characters of `n`, most significant first; the reference
rendering used to reason about `Nat.repr`. -/
def natDigits (n : Nat) : List Char :=
  if _h : n < 10 then [Nat.digitChar n]
  else natDigits (n / 10) ++ [Nat.digitChar (n % 10)]
termination_by n
decreasing_by exact Nat.div_lt_self (by omega) (by omega)

/-- The `matrix` association list produced by the loop of `main` on an
enumerated chunk list, written directly as a filter-and-map. -/
def matrix_entries (ps : List (Nat × List Element)) : List (String × String) :=
  (ps.filter (fun p => !p.2.isEmpty)).map
    (fun p => (make_chunk_name p.1 p.2, pyJoin " " (p.2.map Element.name)))

/-- The `cache_keys` association list produced by the loop of `main` on an
enumerated chunk list, written directly as a filter-and-map. -/
def cache_key_entries (ps : List (Nat × List Element)) : List (String × String) :=
  ((ps.filter (fun p => !p.2.isEmpty)).filter (fun p => compute_cache_key p.2 != "")).map
    (fun p => (make_chunk_name p.1 p.2, compute_cache_key p.2))

/-- Sample elements for concrete instantiations. -/
def elemA : Element := ⟨"base/alpha.bst", "waiting", "k1"⟩

/-- Sample element, state `"buildable"`. -/
def elemB : Element := ⟨"base/beta.bst", "buildable", "k2"⟩

/-- Sample element with a directory prefix in its name. -/
def elemC : Element := ⟨"libs/gamma.bst", "waiting", "k3"⟩

/-- Sample element with an empty cache key. -/
def elemD : Element := ⟨"libs/delta.bst", "waiting", ""⟩

/-- Sample element. -/
def elemE : Element := ⟨"apps/eps.bst", "waiting", "k5"⟩

/-- A five-element filtered plan used by concrete witnesses. -/
def sampleElems : List Element := [elemA, elemB, elemC, elemD, elemE]

/-! ## Lemmas about `sliceEvery` and `chunk_list` -/

theorem filterMap_getElem_all_some {α β : Type} (f : α → Option β) (xs : List α)
    (h : ∀ x ∈ xs, f x ≠ none) (t : Nat) : (xs.filterMap f)[t]? = xs[t]?.bind f := by
  induction xs generalizing t with
  | nil => simp
  | cons x xs ih =>
    obtain ⟨a, ha⟩ := Option.ne_none_iff_exists'.mp (h x (List.mem_cons_self x xs))
    cases t with
    | zero => simp [List.filterMap_cons, ha]
    | succ t =>
      simp only [List.filterMap_cons, ha, List.getElem?_cons_succ]
      exact ih (fun y hy => h y (List.mem_cons_of_mem x hy)) t

theorem filterMap_length_all_some {α β : Type} (f : α → Option β) (xs : List α)
    (h : ∀ x ∈ xs, f x ≠ none) : (xs.filterMap f).length = xs.length := by
  induction xs with
  | nil => simp
  | cons x xs ih =>
    obtain ⟨a, ha⟩ := Option.ne_none_iff_exists'.mp (h x (List.mem_cons_self x xs))
    simp only [List.filterMap_cons, ha, List.length_cons]
    rw [ih (fun y hy => h y (List.mem_cons_of_mem x hy))]

theorem filterMap_getElem_range {α : Type} (l : List α) :
    (List.range l.length).filterMap (fun j => l[j]?) = l := by
  induction l with
  | nil => simp
  | cons x xs ih =>
    rw [List.length_cons, List.range_succ_eq_map, List.filterMap_cons]
    simp only [List.getElem?_cons_zero, List.filterMap_map]
    have h2 : ((fun j => (x :: xs)[j]?) ∘ Nat.succ) = fun j => xs[j]? := by
      funext j
      show (x :: xs)[j.succ]? = xs[j]?
      exact List.getElem?_cons_succ
    rw [h2, ih]

theorem flatten_map_filterMap {α β : Type} (f : α → Option β) (L : List (List α)) :
    (L.map (List.filterMap f)).flatten = L.flatten.filterMap f := by
  induction L with
  | nil => simp
  | cons x xs ih =>
    rw [List.map_cons, List.flatten_cons, List.flatten_cons, List.filterMap_append, ih]

theorem slice_cond_iff {n i j : Nat} (hn : 0 < n) (hi : i < n) :
    (i ≤ j ∧ (j - i) % n = 0) ↔ j % n = i := by
  constructor
  · rintro ⟨hij, hmod⟩
    obtain ⟨k, hk⟩ := Nat.dvd_of_mod_eq_zero hmod
    have hj : j = i + n * k := by omega
    subst hj
    rw [Nat.add_mul_mod_self_left]
    exact Nat.mod_eq_of_lt hi
  · intro h
    have h1 : i ≤ j := h ▸ Nat.mod_le j n
    refine ⟨h1, ?_⟩
    have hd := Nat.div_add_mod j n
    have hj : j - i = n * (j / n) := by omega
    rw [hj]
    exact Nat.mul_mod_right n _

theorem range_filter_slice {n i : Nat} (hn : 0 < n) (m : Nat) :
    (List.range m).filter (fun j => decide (i ≤ j ∧ (j - i) % n = 0)) =
      (List.range ((m - i + n - 1) / n)).map (fun t => i + t * n) := by
  induction m with
  | zero =>
    have h0 : (n - 1) / n = 0 := Nat.div_eq_of_lt (by omega)
    simp [h0]
  | succ m ih =>
    rw [List.range_succ, List.filter_append, ih]
    by_cases hc : i ≤ m ∧ (m - i) % n = 0
    · have hq := Nat.div_add_mod (m - i) n
      set s := (m - i) / n with hs
      have hc1 : (m - i + n - 1) / n = s := by
        have e1 : m - i + n - 1 = n * s + (n - 1) := by omega
        rw [e1, Nat.mul_add_div hn, Nat.div_eq_of_lt (by omega), Nat.add_zero]
      have hc2 : (m + 1 - i + n - 1) / n = s + 1 := by
        have e0 : n * (s + 1) = n * s + n := by ring
        have e2 : m + 1 - i + n - 1 = n * (s + 1) + 0 := by omega
        rw [e2, Nat.mul_add_div hn, Nat.div_eq_of_lt hn, Nat.add_zero]
      have hsel : (fun j => decide (i ≤ j ∧ (j - i) % n = 0)) m = true := by
        simp only [decide_eq_true_eq]
        exact hc
      rw [hc1, hc2, List.range_succ, List.map_append]
      simp only [List.filter_cons, hsel, if_true, List.filter_nil, List.map_cons, List.map_nil]
      have hm : m = i + s * n := by
        have e3 : n * s = s * n := by ring
        omega
      rw [hm]
    · have hsel : (fun j => decide (i ≤ j ∧ (j - i) % n = 0)) m = false := by
        simp only [decide_eq_false_iff_not]
        exact hc
      have hcc : (m + 1 - i + n - 1) / n = (m - i + n - 1) / n := by
        by_cases him : i ≤ m
        · have hr0 : (m - i) % n ≠ 0 := fun h => hc ⟨him, h⟩
          have hdm := Nat.div_add_mod (m - i) n
          set s := (m - i) / n with hs
          set r := (m - i) % n with hr
          have hrn : r < n := Nat.mod_lt _ hn
          have e1 : m - i + n - 1 = n * s + (r + n - 1) := by omega
          have e2 : m + 1 - i + n - 1 = n * s + (r + n) := by omega
          have e3 : r + n - 1 = n * 1 + (r - 1) := by omega
          have e4 : r + n = n * 1 + r := by omega
          rw [e1, e2, Nat.mul_add_div hn, Nat.mul_add_div hn, e3, e4, Nat.mul_add_div hn,
            Nat.mul_add_div hn, Nat.div_eq_of_lt (by omega), Nat.div_eq_of_lt (by omega)]
        · have e5 : m + 1 - i = 0 := by omega
          have e6 : m - i = 0 := by omega
          rw [e5, e6]
      rw [hcc]
      simp only [List.filter_cons, List.filter_nil]
      rw [if_neg (by simpa using hsel)]
      simp

theorem sliceEvery_eq {α : Type} (l : List α) {n : Nat} (i : Nat) (hn : 0 < n) :
    sliceEvery l i n =
      (List.range ((l.length - i + n - 1) / n)).filterMap (fun t => l[i + t * n]?) := by
  unfold sliceEvery
  rw [range_filter_slice hn, List.filterMap_map]
  rfl

theorem slice_count_index_lt {L n i : Nat} (hn : 0 < n) (u : Nat)
    (hu : u < (L - i + n - 1) / n) : i + u * n < L := by
  have h1 : n * ((L - i + n - 1) / n) ≤ L - i + n - 1 := Nat.mul_div_le _ n
  have h2 : n * (u + 1) ≤ n * ((L - i + n - 1) / n) := Nat.mul_le_mul_left n (by omega)
  have h3 : n * (u + 1) = n * u + n := by ring
  have h4 : n * u = u * n := by ring
  by_cases hLi : i < L
  · omega
  · exfalso
    have h5 : L - i = 0 := by omega
    have h6 : (L - i + n - 1) / n = 0 := by
      rw [h5]
      exact Nat.div_eq_of_lt (by omega)
    omega

theorem slice_count_index_ge {L n i : Nat} (hn : 0 < n) (t : Nat)
    (ht : (L - i + n - 1) / n ≤ t) : L ≤ i + t * n := by
  have hd := Nat.div_add_mod (L - i + n - 1) n
  have hm : (L - i + n - 1) % n < n := Nat.mod_lt _ hn
  have h2 : ((L - i + n - 1) / n) * n ≤ t * n := Nat.mul_le_mul_right n ht
  have h3 : n * ((L - i + n - 1) / n) = ((L - i + n - 1) / n) * n := by ring
  omega

theorem sliceEvery_getElem {α : Type} (l : List α) {n : Nat} (i : Nat) (hn : 0 < n) (t : Nat) :
    (sliceEvery l i n)[t]? = l[i + t * n]? := by
  rw [sliceEvery_eq l i hn]
  set c := (l.length - i + n - 1) / n with hc
  have hin : ∀ u ∈ List.range c, (fun t => l[i + t * n]?) u ≠ none := by
    intro u hu
    have hu' : u < c := List.mem_range.mp hu
    have hL : i + u * n < l.length := slice_count_index_lt hn u hu'
    show l[i + u * n]? ≠ none
    rw [List.getElem?_eq_getElem hL]
    simp
  rw [filterMap_getElem_all_some _ _ hin t]
  by_cases ht : t < c
  · rw [List.getElem?_range ht]
    rfl
  · have h1 : (List.range c)[t]? = none := List.getElem?_eq_none (by simpa using ht)
    rw [h1]
    have h2 : l.length ≤ i + t * n := slice_count_index_ge hn t (by omega)
    rw [List.getElem?_eq_none h2]
    rfl

theorem sliceEvery_length {α : Type} (l : List α) {n : Nat} (i : Nat) (hn : 0 < n) :
    (sliceEvery l i n).length = (l.length - i + n - 1) / n := by
  rw [sliceEvery_eq l i hn]
  rw [filterMap_length_all_some, List.length_range]
  intro u hu
  have hu' : u < (l.length - i + n - 1) / n := List.mem_range.mp hu
  have hL : i + u * n < l.length := slice_count_index_lt hn u hu'
  show l[i + u * n]? ≠ none
  rw [List.getElem?_eq_getElem hL]
  simp

theorem sliceEvery_ne_nil {α : Type} (l : List α) {n i : Nat} (hn : 0 < n) (hi : i < n)
    (hle : n ≤ l.length) : sliceEvery l i n ≠ [] := by
  have hlen : (sliceEvery l i n).length = (l.length - i + n - 1) / n := sliceEvery_length l i hn
  have hpos : 1 ≤ (l.length - i + n - 1) / n := by
    rw [Nat.le_div_iff_mul_le hn]
    omega
  rw [← List.length_pos, hlen]
  omega

theorem flatten_fiber_perm {β : Type} (g : β → Nat) :
    ∀ (n : Nat) (e : List β), (∀ x ∈ e, g x < n) →
      (((List.range n).map (fun i => e.filter (fun x => g x == i))).flatten).Perm e := by
  intro n
  induction n with
  | zero =>
    intro e he
    cases e with
    | nil => simp
    | cons x xs => exact absurd (he x (List.mem_cons_self x xs)) (by omega)
  | succ n ih =>
    intro e he
    rw [List.range_succ, List.map_append, List.flatten_append]
    simp only [List.map_cons, List.map_nil, List.flatten_cons, List.flatten_nil, List.append_nil]
    set e1 := e.filter (fun x => !(g x == n)) with he1
    have hstep : ∀ i ∈ List.range n,
        e.filter (fun x => g x == i) = e1.filter (fun x => g x == i) := by
      intro i hi
      have hi' : i < n := List.mem_range.mp hi
      rw [he1, List.filter_filter]
      apply List.filter_congr
      intro x _
      rw [Bool.eq_iff_iff]
      simp only [Bool.and_eq_true, Bool.not_eq_true', beq_iff_eq, beq_eq_false_iff_ne]
      constructor
      · intro h
        exact ⟨h, by omega⟩
      · intro h
        exact h.1
    rw [List.map_congr_left hstep]
    have h1 : (((List.range n).map (fun i => e1.filter (fun x => g x == i))).flatten).Perm e1 := by
      apply ih
      intro x hx
      have hx' := List.mem_filter.mp hx
      have hlt := he x hx'.1
      have hne : g x ≠ n := by simpa using hx'.2
      omega
    have h2 : (e1 ++ e.filter (fun x => g x == n)).Perm e := by
      have h3 := List.filter_append_perm (fun x => !(g x == n)) e
      simp only [Bool.not_not] at h3
      exact h3
    exact (h1.append (List.Perm.refl _)).trans h2

theorem flatten_chunk_slices_perm {α : Type} (l : List α) {n : Nat} (hn : 0 < n) :
    (((List.range n).map (fun i => sliceEvery l i n)).flatten).Perm l := by
  have hcong : (List.range n).map (fun i => sliceEvery l i n) =
      (List.range n).map (fun i =>
        ((List.range l.length).filter (fun j => j % n == i)).filterMap (fun j => l[j]?)) := by
    apply List.map_congr_left
    intro i hi
    have hi' : i < n := List.mem_range.mp hi
    unfold sliceEvery
    congr 1
    apply List.filter_congr
    intro j _
    rw [Bool.eq_iff_iff]
    simp only [decide_eq_true_eq, beq_iff_eq]
    exact slice_cond_iff hn hi'
  rw [hcong]
  have hmapf : (List.range n).map (fun i =>
      ((List.range l.length).filter (fun j => j % n == i)).filterMap (fun j => l[j]?)) =
      ((List.range n).map (fun i =>
        (List.range l.length).filter (fun j => j % n == i))).map (List.filterMap (fun j => l[j]?)) := by
    rw [List.map_map]
    rfl
  rw [hmapf, flatten_map_filterMap]
  have hperm := flatten_fiber_perm (fun j => j % n) n (List.range l.length)
    (fun x _ => Nat.mod_lt x hn)
  have := hperm.filterMap (fun j => l[j]?)
  rw [filterMap_getElem_range] at this
  exact this

/-! ## Uniqueness of chunk names: decimal rendering is injective -/

theorem natDigits_small {n : Nat} (h : n < 10) : natDigits n = [Nat.digitChar n] := by
  rw [natDigits, dif_pos h]

theorem natDigits_big {n : Nat} (h : ¬n < 10) :
    natDigits n = natDigits (n / 10) ++ [Nat.digitChar (n % 10)] := by
  rw [natDigits, dif_neg h]

theorem natDigits_toDigitsCore (fuel : Nat) :
    ∀ (n : Nat) (acc : List Char), n < fuel →
      Nat.toDigitsCore 10 fuel n acc = natDigits n ++ acc := by
  induction fuel with
  | zero => intro n acc h; omega
  | succ fuel ih =>
    intro n acc h
    rw [Nat.toDigitsCore]
    by_cases h10 : n / 10 = 0
    · have hn10 : n < 10 := by
        have h1 := Nat.div_add_mod n 10
        have h2 : n % 10 < 10 := Nat.mod_lt _ (by omega)
        omega
      rw [if_pos h10, natDigits_small hn10, Nat.mod_eq_of_lt hn10]
      rfl
    · have hge : 10 ≤ n := by
        by_contra hlt
        exact h10 (Nat.div_eq_of_lt (by omega))
      rw [if_neg h10]
      have hfuel : n / 10 < fuel := by
        have := Nat.div_lt_self (by omega : 0 < n) (by omega : 1 < 10)
        omega
      rw [ih (n / 10) _ hfuel, natDigits_big (n := n) (by omega), List.append_assoc]
      rfl

theorem repr_data_eq (n : Nat) : (Nat.repr n).data = natDigits n := by
  show ((Nat.toDigits 10 n).asString).data = natDigits n
  show (Nat.toDigitsCore 10 (n + 1) n []).asString.data = natDigits n
  rw [natDigits_toDigitsCore (n + 1) n [] (by omega), List.append_nil]
  rfl

theorem natDigits_ne_nil (n : Nat) : natDigits n ≠ [] := by
  by_cases h : n < 10
  · rw [natDigits_small h]
    simp
  · rw [natDigits_big h]
    simp

theorem digitChar_isDigit : ∀ a, a < 10 → (Nat.digitChar a).isDigit = true := by decide

theorem digitChar_inj10 : ∀ a, a < 10 → ∀ b, b < 10 → Nat.digitChar a = Nat.digitChar b → a = b := by
  decide

theorem natDigits_all_digit (n : Nat) : ∀ c ∈ natDigits n, c.isDigit = true := by
  induction n using Nat.strong_induction_on with
  | _ n ih =>
    by_cases h : n < 10
    · rw [natDigits_small h]
      intro c hc
      have hce : c = Nat.digitChar n := by simpa using hc
      rw [hce]
      exact digitChar_isDigit n h
    · rw [natDigits_big h]
      intro c hc
      rw [List.mem_append] at hc
      rcases hc with hc | hc
      · exact ih (n / 10) (Nat.div_lt_self (by omega) (by omega)) c hc
      · have hce : c = Nat.digitChar (n % 10) := by simpa using hc
        rw [hce]
        exact digitChar_isDigit _ (Nat.mod_lt _ (by omega))

theorem natDigits_inj (m : Nat) : ∀ n, natDigits m = natDigits n → m = n := by
  induction m using Nat.strong_induction_on with
  | _ m ih =>
    intro n h
    by_cases hm : m < 10 <;> by_cases hn : n < 10
    · rw [natDigits_small hm, natDigits_small hn] at h
      exact digitChar_inj10 m hm n hn (by simpa using h)
    · exfalso
      rw [natDigits_small hm, natDigits_big hn] at h
      have hlen := congrArg List.length h
      rw [List.length_append] at hlen
      simp only [List.length_cons, List.length_nil, List.length_singleton] at hlen
      exact natDigits_ne_nil (n / 10) (List.length_eq_zero.mp (by omega))
    · exfalso
      rw [natDigits_big hm, natDigits_small hn] at h
      have hlen := congrArg List.length h
      rw [List.length_append] at hlen
      simp only [List.length_cons, List.length_nil, List.length_singleton] at hlen
      exact natDigits_ne_nil (m / 10) (List.length_eq_zero.mp (by omega))
    · rw [natDigits_big hm, natDigits_big hn] at h
      have h' := congrArg List.reverse h
      rw [List.reverse_append, List.reverse_append] at h'
      simp only [List.reverse_cons, List.reverse_nil, List.nil_append, List.cons_append] at h'
      have h1 : Nat.digitChar (m % 10) = Nat.digitChar (n % 10) := by
        injection h' with hh _
      have h2 : (natDigits (m / 10)).reverse = (natDigits (n / 10)).reverse := by
        injection h' with _ hh
      have hm10 : m % 10 = n % 10 :=
        digitChar_inj10 _ (Nat.mod_lt _ (by omega)) _ (Nat.mod_lt _ (by omega)) h1
      have hdiv : natDigits (m / 10) = natDigits (n / 10) := by
        have h3 := congrArg List.reverse h2
        simpa using h3
      have hdiv2 : m / 10 = n / 10 := ih (m / 10) (Nat.div_lt_self (by omega) (by omega)) _ hdiv
      have hdm := Nat.div_add_mod m 10
      have hdn := Nat.div_add_mod n 10
      omega

theorem nat_repr_inj {m n : Nat} (h : Nat.repr m = Nat.repr n) : m = n :=
  natDigits_inj m n (by rw [← repr_data_eq, ← repr_data_eq, h])

theorem digits_prefix_cancel (d1 : List Char) :
    ∀ (d2 r1 r2 : List Char),
      (∀ c ∈ d1, c.isDigit = true) → (∀ c ∈ d2, c.isDigit = true) →
      (r1 = [] ∨ ∃ t, r1 = '-' :: t) → (r2 = [] ∨ ∃ t, r2 = '-' :: t) →
      d1 ++ r1 = d2 ++ r2 → d1 = d2 := by
  induction d1 with
  | nil =>
    intro d2 r1 r2 _ hd2 hr1 _ h
    cases d2 with
    | nil => rfl
    | cons c cs =>
      exfalso
      simp only [List.nil_append, List.cons_append] at h
      rcases hr1 with rfl | ⟨t, rfl⟩
      · exact List.cons_ne_nil c (cs ++ r2) h.symm
      · rw [List.cons.injEq] at h
        have hc : c = '-' := h.1.symm
        have hdig := hd2 c (List.mem_cons_self _ _)
        rw [hc] at hdig
        exact absurd hdig (by decide)
  | cons a as ih =>
    intro d2 r1 r2 hd1 hd2 hr1 hr2 h
    cases d2 with
    | nil =>
      exfalso
      simp only [List.nil_append, List.cons_append] at h
      rcases hr2 with rfl | ⟨t, rfl⟩
      · exact List.cons_ne_nil a (as ++ r1) h
      · rw [List.cons.injEq] at h
        have hc : a = '-' := h.1
        have hdig := hd1 a (List.mem_cons_self _ _)
        rw [hc] at hdig
        exact absurd hdig (by decide)
    | cons b bs =>
      simp only [List.cons_append, List.cons.injEq] at h
      have h1 : a = b := h.1
      have h2 : as ++ r1 = bs ++ r2 := h.2
      rw [h1, ih bs r1 r2 (fun c hc => hd1 c (List.mem_cons_of_mem a hc))
        (fun c hc => hd2 c (List.mem_cons_of_mem b hc)) hr1 hr2 h2]

theorem make_chunk_name_data (i : Nat) (es : List Element) :
    ∃ r, (make_chunk_name i es).data = "chunk".data ++ ((Nat.repr i).data ++ r) ∧
      (r = [] ∨ ∃ t, r = '-' :: t) := by
  cases es with
  | nil =>
    refine ⟨[], ?_, Or.inl rfl⟩
    show ("chunk" ++ Nat.repr i).data = _
    rw [String.data_append, List.append_nil]
  | cons first rest =>
    refine ⟨'-' :: (pyReplace (pyRsplitLast first.name '/') ".bst" "").data, ?_, Or.inr ⟨_, rfl⟩⟩
    show ("chunk" ++ Nat.repr i ++ "-" ++ pyReplace (pyRsplitLast first.name '/') ".bst" "").data = _
    rw [String.data_append, String.data_append, String.data_append]
    have hdash : ("-" : String).data = ['-'] := rfl
    rw [hdash, List.append_assoc, List.append_assoc]
    rfl

theorem make_chunk_name_index_inj {i j : Nat} {es es' : List Element}
    (h : make_chunk_name i es = make_chunk_name j es') : i = j := by
  have hdata := congrArg String.data h
  obtain ⟨r1, e1, hr1⟩ := make_chunk_name_data i es
  obtain ⟨r2, e2, hr2⟩ := make_chunk_name_data j es'
  rw [e1, e2] at hdata
  have hcancel := List.append_cancel_left hdata
  have hdd : (Nat.repr i).data = (Nat.repr j).data := by
    apply digits_prefix_cancel _ _ r1 r2 ?_ ?_ hr1 hr2 hcancel
    · rw [repr_data_eq]
      exact natDigits_all_digit i
    · rw [repr_data_eq]
      exact natDigits_all_digit j
  exact nat_repr_inj (String.ext hdd)

theorem enum_pairwise_names (chunks : List (List Element)) :
    chunks.enum.Pairwise (fun p q => make_chunk_name p.1 p.2 ≠ make_chunk_name q.1 q.2) := by
  have hidx : chunks.enum.Pairwise (fun p q => p.1 < q.1) := by
    rw [List.pairwise_iff_getElem]
    intro a b ha hb hab
    rw [List.getElem_enum, List.getElem_enum]
    simpa using hab
  exact hidx.imp (fun hpq h => absurd (make_chunk_name_index_inj h) (by omega))

/-! ## The matrix-building loop as filter-and-map -/

theorem dict_insert_fresh (d : List (String × String)) (k v : String)
    (h : k ∉ d.map Prod.fst) : dict_insert d k v = d ++ [(k, v)] := by
  unfold dict_insert
  rw [if_neg h]

theorem matrix_entries_cons (i : Nat) (chunk : List Element) (rest : List (Nat × List Element)) :
    matrix_entries ((i, chunk) :: rest) =
      if chunk.isEmpty then matrix_entries rest
      else (make_chunk_name i chunk, pyJoin " " (chunk.map Element.name)) :: matrix_entries rest := by
  unfold matrix_entries
  by_cases h : chunk.isEmpty
  · simp [List.filter_cons, h]
  · simp [List.filter_cons, h]

theorem cache_key_entries_cons (i : Nat) (chunk : List Element)
    (rest : List (Nat × List Element)) :
    cache_key_entries ((i, chunk) :: rest) =
      if chunk.isEmpty then cache_key_entries rest
      else if compute_cache_key chunk = "" then cache_key_entries rest
      else (make_chunk_name i chunk, compute_cache_key chunk) :: cache_key_entries rest := by
  unfold cache_key_entries
  by_cases h : chunk.isEmpty
  · simp [List.filter_cons, h]
  · by_cases hk : compute_cache_key chunk = ""
    · simp [List.filter_cons, h, hk]
    · simp [List.filter_cons, h, hk]

theorem chunks_fold_eq (ps : List (Nat × List Element)) :
    ∀ (m ck : List (String × String)),
      ps.Pairwise (fun p q => make_chunk_name p.1 p.2 ≠ make_chunk_name q.1 q.2) →
      (∀ p ∈ ps, make_chunk_name p.1 p.2 ∉ m.map Prod.fst) →
      (∀ p ∈ ps, make_chunk_name p.1 p.2 ∉ ck.map Prod.fst) →
      chunks_fold m ck ps = (m ++ matrix_entries ps, ck ++ cache_key_entries ps) := by
  induction ps with
  | nil =>
    intro m ck _ _ _
    simp [chunks_fold, matrix_entries, cache_key_entries]
  | cons p rest ih =>
    obtain ⟨i, chunk⟩ := p
    intro m ck hp hm hck
    rw [matrix_entries_cons, cache_key_entries_cons]
    by_cases hemp : chunk.isEmpty
    · rw [if_pos hemp, if_pos hemp]
      rw [show chunks_fold m ck ((i, chunk) :: rest) = chunks_fold m ck rest by
        simp [chunks_fold, hemp]]
      exact ih m ck hp.of_cons (fun q hq => hm q (List.mem_cons_of_mem _ hq))
        (fun q hq => hck q (List.mem_cons_of_mem _ hq))
    · rw [if_neg hemp, if_neg hemp]
      have hstep : chunks_fold m ck ((i, chunk) :: rest) =
          chunks_fold
            (dict_insert m (make_chunk_name i chunk) (pyJoin " " (chunk.map Element.name)))
            (if compute_cache_key chunk = "" then ck
             else dict_insert ck (make_chunk_name i chunk) (compute_cache_key chunk)) rest := by
        simp [chunks_fold, hemp]
      rw [hstep]
      rw [dict_insert_fresh m _ _ (hm (i, chunk) (List.mem_cons_self _ _))]
      have hrel : ∀ q ∈ rest, make_chunk_name i chunk ≠ make_chunk_name q.1 q.2 :=
        fun q hq => List.rel_of_pairwise_cons hp hq
      have hm2 : ∀ q ∈ rest, make_chunk_name q.1 q.2 ∉
          (m ++ [(make_chunk_name i chunk, pyJoin " " (chunk.map Element.name))]).map Prod.fst := by
        intro q hq
        rw [List.map_append, List.mem_append]
        rintro (hmem | hmem)
        · exact hm q (List.mem_cons_of_mem _ hq) hmem
        · have heq : make_chunk_name q.1 q.2 = make_chunk_name i chunk := by simpa using hmem
          exact hrel q hq heq.symm
      by_cases hkey : compute_cache_key chunk = ""
      · rw [if_pos hkey, if_pos hkey]
        rw [ih _ _ hp.of_cons hm2 (fun q hq => hck q (List.mem_cons_of_mem _ hq))]
        rw [List.append_assoc]
        rfl
      · rw [if_neg hkey, if_neg hkey]
        rw [dict_insert_fresh ck _ _ (hck (i, chunk) (List.mem_cons_self _ _))]
        have hck2 : ∀ q ∈ rest, make_chunk_name q.1 q.2 ∉
            (ck ++ [(make_chunk_name i chunk, compute_cache_key chunk)]).map Prod.fst := by
          intro q hq
          rw [List.map_append, List.mem_append]
          rintro (hmem | hmem)
          · exact hck q (List.mem_cons_of_mem _ hq) hmem
          · have heq : make_chunk_name q.1 q.2 = make_chunk_name i chunk := by simpa using hmem
            exact hrel q hq heq.symm
        rw [ih _ _ hp.of_cons hm2 hck2]
        rw [List.append_assoc, List.append_assoc]
        rfl

theorem process_chunks_eq (chunks : List (List Element)) :
    process_chunks chunks = (matrix_entries chunks.enum, cache_key_entries chunks.enum) := by
  unfold process_chunks
  rw [chunks_fold_eq chunks.enum [] [] (enum_pairwise_names chunks) (by simp) (by simp)]
  simp

/-! ## Python string order: total, transitive, antisymmetric -/

theorem charListLe_total (a : List Char) : ∀ b, charListLe a b = true ∨ charListLe b a = true := by
  induction a with
  | nil => intro b; exact Or.inl rfl
  | cons x xs ih =>
    intro b
    cases b with
    | nil => exact Or.inr rfl
    | cons y ys =>
      by_cases h1 : x.toNat < y.toNat
      · left
        simp [charListLe, h1]
      · by_cases h2 : y.toNat < x.toNat
        · right
          simp [charListLe, h2]
        · rcases ih ys with h | h
          · left
            simp [charListLe, h1, h2, h]
          · right
            simp [charListLe, h1, h2, h]

theorem charListLe_trans (a : List Char) :
    ∀ b c, charListLe a b = true → charListLe b c = true → charListLe a c = true := by
  induction a with
  | nil => intro b c _ _; rfl
  | cons x xs ih =>
    intro b c hab hbc
    cases b with
    | nil => simp [charListLe] at hab
    | cons y ys =>
      cases c with
      | nil => simp [charListLe] at hbc
      | cons z zs =>
        simp only [charListLe] at hab hbc ⊢
        have hxy : x.toNat < y.toNat ∨ (x.toNat = y.toNat ∧ charListLe xs ys = true) := by
          by_cases h1 : x.toNat < y.toNat
          · exact Or.inl h1
          · by_cases h2 : y.toNat < x.toNat
            · rw [if_neg h1, if_pos h2] at hab
              simp at hab
            · right
              refine ⟨by omega, ?_⟩
              rwa [if_neg h1, if_neg h2] at hab
        have hyz : y.toNat < z.toNat ∨ (y.toNat = z.toNat ∧ charListLe ys zs = true) := by
          by_cases h1 : y.toNat < z.toNat
          · exact Or.inl h1
          · by_cases h2 : z.toNat < y.toNat
            · rw [if_neg h1, if_pos h2] at hbc
              simp at hbc
            · right
              refine ⟨by omega, ?_⟩
              rwa [if_neg h1, if_neg h2] at hbc
        rcases hxy with h | ⟨he1, hr1⟩ <;> rcases hyz with h' | ⟨he2, hr2⟩
        · rw [if_pos (by omega : x.toNat < z.toNat)]
        · rw [if_pos (by omega : x.toNat < z.toNat)]
        · rw [if_pos (by omega : x.toNat < z.toNat)]
        · rw [if_neg (by omega : ¬x.toNat < z.toNat), if_neg (by omega : ¬z.toNat < x.toNat)]
          exact ih ys zs hr1 hr2

theorem charListLe_antisymm (a : List Char) :
    ∀ b, charListLe a b = true → charListLe b a = true → a = b := by
  induction a with
  | nil =>
    intro b _ hba
    cases b with
    | nil => rfl
    | cons y ys => simp [charListLe] at hba
  | cons x xs ih =>
    intro b hab hba
    cases b with
    | nil => simp [charListLe] at hab
    | cons y ys =>
      simp only [charListLe] at hab hba
      by_cases h1 : x.toNat < y.toNat
      · rw [if_neg (by omega : ¬y.toNat < x.toNat), if_pos h1] at hba
        simp at hba
      · by_cases h2 : y.toNat < x.toNat
        · rw [if_neg h1, if_pos h2] at hab
          simp at hab
        · have hxy : x = y := by
            have he : x.toNat = y.toNat := by omega
            have hco := congrArg Char.ofNat he
            simpa [Char.ofNat_toNat] using hco
          rw [if_neg h1, if_neg h2] at hab
          rw [if_neg h2, if_neg h1] at hba
          rw [hxy, ih ys hab hba]

instance : IsTotal String pyStrLe := ⟨fun s t => charListLe_total s.data t.data⟩

instance : IsTrans String pyStrLe :=
  ⟨fun a b c hab hbc => charListLe_trans a.data b.data c.data hab hbc⟩

instance : IsAntisymm String pyStrLe :=
  ⟨fun a b hab hba => String.ext (charListLe_antisymm a.data b.data hab hba)⟩

/-- Composite cache keys depend only on the multiset of non-empty `key`
fields: permuting that multiset leaves the sorted key list, hence the
digest, unchanged. -/
theorem compute_cache_key_congr {l1 l2 : List Element}
    (h : ((l1.map Element.key).filter (fun k => k != "")).Perm
         ((l2.map Element.key).filter (fun k => k != ""))) :
    compute_cache_key l1 = compute_cache_key l2 := by
  unfold compute_cache_key
  have hsorted : List.insertionSort pyStrLe ((l1.map Element.key).filter (fun k => k != "")) =
      List.insertionSort pyStrLe ((l2.map Element.key).filter (fun k => k != "")) := by
    exact @List.eq_of_perm_of_sorted String pyStrLe inferInstance _ _
      ((List.perm_insertionSort _ _).trans (h.trans (List.perm_insertionSort _ _).symm))
      (List.sorted_insertionSort _ _) (List.sorted_insertionSort _ _)
  rw [hsorted]

/-! ## Structural facts about `main` used by several claims -/

theorem leaf_elements_nil (core_split : Int) : leaf_elements ([] : List Element) core_split = [] := by
  unfold leaf_elements pyDrop
  split <;> simp

theorem chunks_of_nil (num_chunks core_split : Int) :
    chunks_of ([] : List Element) num_chunks core_split = [] := by
  unfold chunks_of
  simp [leaf_elements_nil]

theorem chunks_of_all_ne_nil (es : List Element) (num_chunks core_split : Int) :
    ∀ c ∈ chunks_of es num_chunks core_split, c ≠ [] := by
  intro c hc
  unfold chunks_of at hc
  by_cases hcond : leaf_elements es core_split ≠ [] ∧ 0 < num_chunks
  · rw [if_pos hcond] at hc
    unfold chunk_list at hc
    obtain ⟨i, hi, rfl⟩ := List.mem_map.mp hc
    have hi' := List.mem_range.mp hi
    set leaf := leaf_elements es core_split with hleaf
    have hlpos : 0 < leaf.length := List.length_pos.mpr hcond.1
    have hlen1 : (1 : Int) ≤ (leaf.length : Int) := by exact_mod_cast hlpos
    have hle : (min num_chunks (leaf.length : Int)).toNat ≤ leaf.length := by omega
    exact sliceEvery_ne_nil leaf (by omega) hi' hle
  · rw [if_neg hcond] at hc
    exact absurd hc (List.not_mem_nil c)

/-! ## The claims -/

/-- C1 (corrected form): for every filtered element sequence, every
`coreSplit ≥ 0`, and every `numChunks ≥ 1` (or a leaf group that is empty
anyway), the core group followed by the elements of all chunks is a
permutation of the filtered sequence: every filtered element appears in
exactly one of core or one chunk, with no duplicates and no omissions.
The claim as frozen also allowed `numChunks = 0`, where the code drops the
whole leaf group; see the counterexample. -/
theorem c1_partition_completeness (es : List Element) (num_chunks core_split : Int)
    (hcs : 0 ≤ core_split) (hn : 1 ≤ num_chunks ∨ leaf_elements es core_split = []) :
    (core_elements es core_split ++ (chunks_of es num_chunks core_split).flatten).Perm es := by
  have hcore : core_elements es core_split = es.take core_split.toNat := by
    unfold core_elements pyTake
    rw [if_pos hcs]
  have hleaf : leaf_elements es core_split = es.drop core_split.toNat := by
    unfold leaf_elements pyDrop
    rw [if_pos hcs]
  have hsplit : core_elements es core_split ++ leaf_elements es core_split = es := by
    rw [hcore, hleaf]
    exact List.take_append_drop _ _
  by_cases hl : leaf_elements es core_split = []
  · have hchunks : chunks_of es num_chunks core_split = [] := by
      unfold chunks_of
      rw [if_neg (by simp [hl])]
    rw [hchunks]
    simp only [List.flatten_nil, List.append_nil]
    rw [hl, List.append_nil] at hsplit
    rw [hsplit]
  · have hn1 : 1 ≤ num_chunks := hn.resolve_right hl
    set leaf := leaf_elements es core_split with hleafdef
    have hlpos : 0 < leaf.length := List.length_pos.mpr hl
    have hlen1 : (1 : Int) ≤ (leaf.length : Int) := by exact_mod_cast hlpos
    set m := min num_chunks (leaf.length : Int) with hm
    have hmpos : 0 < m.toNat := by omega
    have hchunks : chunks_of es num_chunks core_split = chunk_list leaf m := by
      unfold chunks_of
      rw [if_pos ⟨hl, by omega⟩]
    rw [hchunks]
    unfold chunk_list
    have hperm := flatten_chunk_slices_perm leaf hmpos
    have h2 := (List.Perm.refl (core_elements es core_split)).append hperm
    rw [hsplit] at h2
    exact h2

/-- C1 counterexample: with `numChunks = 0` (allowed by the claim, which
only requires `numChunks ≥ 0`) and a non-empty leaf group, the code emits no
chunks at all, so core plus chunks is empty while the filtered sequence is
not: the union is not the filtered sequence. -/
theorem c1_counterexample :
    ¬ (core_elements [elemA] 0 ++ (chunks_of [elemA] 0 0).flatten).Perm [elemA] := by
  intro h
  have hfl : core_elements [elemA] 0 ++ (chunks_of [elemA] 0 0).flatten = [] := by rfl
  rw [hfl] at h
  simpa using h.length_eq

/-- C1 witness: the corrected statement applied at the five-element sample
plan with `coreSplit = 2` and `numChunks = 2`. -/
theorem c1_witness : (0 : Int) ≤ 2 ∧ (1 : Int) ≤ 2 ∧
    (core_elements sampleElems 2 ++ (chunks_of sampleElems 2 2).flatten).Perm sampleElems :=
  ⟨by decide, by decide,
   c1_partition_completeness sampleElems 2 2 (by decide) (Or.inl (by decide))⟩

/-- C2: for a leaf group of size `L` and a chunk count `N` with
`1 ≤ N ≤ L`, `chunk_list` produces exactly `N` chunks; each chunk has either
`⌊L/N⌋` or `⌈L/N⌉` elements; chunk `i` consists exactly of the elements at
indices `i, i + N, i + 2N, ...` in their original relative order; and
interleaving the chunks reconstructs the original order: the element at
index `k` of the leaf group is element `k / N` of chunk `k % N`. -/
theorem c2_round_robin (l : List Element) (N : Nat) (h1 : 1 ≤ N) (h2 : N ≤ l.length) :
    (chunk_list l (N : Int)).length = N ∧
    (∀ i, i < N → (((chunk_list l (N : Int)).getD i []).length = l.length / N ∨
      ((chunk_list l (N : Int)).getD i []).length = (l.length + N - 1) / N)) ∧
    (∀ i, i < N → ∀ j, ((chunk_list l (N : Int)).getD i [])[j]? = l[i + j * N]?) ∧
    (∀ k, k < l.length → l[k]? = ((chunk_list l (N : Int)).getD (k % N) [])[k / N]?) := by
  have htn : (N : Int).toNat = N := Int.toNat_natCast N
  have hgetD : ∀ i, i < N → (chunk_list l (N : Int)).getD i [] = sliceEvery l i N := by
    intro i hi
    unfold chunk_list
    rw [htn, List.getD_eq_getElem?_getD, List.getElem?_map, List.getElem?_range hi]
    rfl
  refine ⟨?_, ?_, ?_, ?_⟩
  · unfold chunk_list
    rw [htn, List.length_map, List.length_range]
  · intro i hi
    rw [hgetD i hi, sliceEvery_length l i (by omega)]
    have hd := Nat.div_add_mod l.length N
    set L := l.length with hL
    set q := L / N with hq
    set r := L % N with hr
    have hrN : r < N := Nat.mod_lt _ (by omega)
    have hmulq : N * (q + 1) = N * q + N := by ring
    by_cases hir : i < r
    · right
      have e1 : L - i + N - 1 = N * (q + 1) + (r - i - 1) := by omega
      have e2 : L + N - 1 = N * (q + 1) + (r - 1) := by omega
      have hLside : (L - i + N - 1) / N = q + 1 := by
        rw [e1, Nat.mul_add_div (by omega), Nat.div_eq_of_lt (by omega), Nat.add_zero]
      have hRside : (L + N - 1) / N = q + 1 := by
        rw [e2, Nat.mul_add_div (by omega), Nat.div_eq_of_lt (by omega), Nat.add_zero]
      rw [hLside, hRside]
    · left
      have e1 : L - i + N - 1 = N * q + (r + N - 1 - i) := by omega
      have hLside : (L - i + N - 1) / N = q := by
        rw [e1, Nat.mul_add_div (by omega), Nat.div_eq_of_lt (by omega), Nat.add_zero]
      rw [hLside]
  · intro i hi j
    rw [hgetD i hi]
    exact sliceEvery_getElem l i (by omega) j
  · intro k hk
    have hkN : k % N < N := Nat.mod_lt _ (by omega)
    rw [hgetD _ hkN, sliceEvery_getElem l _ (by omega) (k / N), Nat.mod_add_div']

/-- C2 witness: the statement applied at the five-element sample plan with
`N = 2`. -/
theorem c2_witness : 1 ≤ 2 ∧ 2 ≤ sampleElems.length ∧
    (chunk_list sampleElems ((2 : Nat) : Int)).length = 2 :=
  ⟨by decide, by decide, (c2_round_robin sampleElems 2 (by decide) (by decide)).1⟩

/-- C3 (corrected form): two element lists with the same **multiset** of
non-empty keys produce identical composite cache keys, regardless of how the
elements were grouped or ordered. (Equality of the key *set* alone is not
enough: `sorted` keeps duplicates, so multiplicity matters — see the
counterexample.) -/
theorem c3_composite_key_invariance (l1 l2 : List Element)
    (h : ((l1.map Element.key).filter (fun k => k != "")).Perm
         ((l2.map Element.key).filter (fun k => k != ""))) :
    compute_cache_key l1 = compute_cache_key l2 :=
  compute_cache_key_congr h

/-- C3 counterexample: `[k]` and `[k, k]` have the same *set* of non-empty
keys (their deduplicated key lists agree) but different composite keys,
because the sorted key list keeps duplicates and `"k"` hashes differently
from `"k\nk"`. -/
theorem c3_counterexample :
    ((([⟨"a", "waiting", "k"⟩] : List Element).map Element.key).filter (fun k => k != "")).dedup =
      ((([⟨"a", "waiting", "k"⟩, ⟨"b", "waiting", "k"⟩] : List Element).map Element.key).filter
        (fun k => k != "")).dedup ∧
    compute_cache_key [⟨"a", "waiting", "k"⟩] ≠
      compute_cache_key [⟨"a", "waiting", "k"⟩, ⟨"b", "waiting", "k"⟩] := by
  constructor
  · decide
  · decide

/-- C3 witness: the corrected statement applied to two concrete lists whose
non-empty keys are the same multiset in a different order. -/
theorem c3_witness :
    ((([⟨"x", "waiting", "ka"⟩, ⟨"y", "waiting", "kb"⟩] : List Element).map Element.key).filter
      (fun k => k != "")).Perm
      ((([⟨"z", "done", "kb"⟩, ⟨"w", "waiting", "ka"⟩] : List Element).map Element.key).filter
        (fun k => k != "")) ∧
    compute_cache_key [⟨"x", "waiting", "ka"⟩, ⟨"y", "waiting", "kb"⟩] =
      compute_cache_key [⟨"z", "done", "kb"⟩, ⟨"w", "waiting", "ka"⟩] :=
  ⟨by decide, c3_composite_key_invariance _ _ (by decide)⟩

/-- C4 (corrected form): the chunk name is `"chunk<index>-<label>"`, where
the label is the first element's name with any directory prefix removed and
every occurrence of `".bst"` removed (Python `str.replace`, not only a
trailing suffix); an empty element list gives `"chunk<index>"`; in
particular `"libs/foo.bst"` at index 2 always yields `"chunk2-foo"`. -/
theorem c4_chunk_naming (i : Nat) (first : Element) (rest : List Element) :
    make_chunk_name i [] = "chunk" ++ Nat.repr i ∧
    make_chunk_name i (first :: rest) =
      "chunk" ++ Nat.repr i ++ "-" ++ pyReplace (pyRsplitLast first.name '/') ".bst" "" ∧
    make_chunk_name 2 [⟨"libs/foo.bst", "waiting", "k"⟩] = "chunk2-foo" ∧
    make_chunk_name 0 [⟨"core/gcc/gcc.bst", "waiting", ""⟩] = "chunk0-gcc" ∧
    make_chunk_name 7 [⟨"standalone", "waiting", "k"⟩] = "chunk7-standalone" :=
  ⟨rfl, rfl, by decide, by decide, by decide⟩

/-- C4 counterexample: for the first-element name `"a.bst.txt"` the code
removes the inner `".bst"` (Python `str.replace` removes every occurrence),
while the claim's "suffix stripped if present" would leave the name
unchanged, since `".bst"` is not a suffix of it. -/
theorem c4_counterexample :
    make_chunk_name 0 [⟨"a.bst.txt", "waiting", "k"⟩] = "chunk0-a.txt" ∧
    make_chunk_name_spec 0 [⟨"a.bst.txt", "waiting", "k"⟩] = "chunk0-a.bst.txt" ∧
    make_chunk_name 0 [⟨"a.bst.txt", "waiting", "k"⟩] ≠
      make_chunk_name_spec 0 [⟨"a.bst.txt", "waiting", "k"⟩] :=
  ⟨by decide, by decide, by decide⟩

/-- C10: the composite cache key depends only on the multiset of the
elements' `key` fields; element names and states never enter the
computation, and order does not matter. -/
theorem c10_key_field_only (l1 l2 : List Element)
    (h : (l1.map Element.key).Perm (l2.map Element.key)) :
    compute_cache_key l1 = compute_cache_key l2 :=
  compute_cache_key_congr (h.filter _)

/-- C10 witness: two concrete lists with different names, states and order
but the same keys get the same composite key. -/
theorem c10_witness :
    (([⟨"a", "waiting", "k1"⟩, ⟨"b", "buildable", "k2"⟩] : List Element).map Element.key).Perm
      (([⟨"z", "odd", "k2"⟩, ⟨"w", "waiting", "k1"⟩] : List Element).map Element.key) ∧
    compute_cache_key [⟨"a", "waiting", "k1"⟩, ⟨"b", "buildable", "k2"⟩] =
      compute_cache_key [⟨"z", "odd", "k2"⟩, ⟨"w", "waiting", "k1"⟩] :=
  ⟨by decide, c10_key_field_only _ _ (by decide)⟩

/-- C5: in every result of `main`, the cache-keys mapping carries exactly
the names of the matrix chunks whose composite key is non-empty — a chunk
whose composite key computation yields `""` appears in the matrix but is
absent from the cache-keys mapping — and the matrix chunk names are
pairwise distinct. -/
theorem c5_matrix_cache_keys_alignment (target : String) (num_chunks core_split : Int)
    (es : List Element) :
    (main_result target num_chunks core_split es).cache_keys.map Prod.fst =
      (((chunks_of es num_chunks core_split).enum.filter (fun p => !p.2.isEmpty)).filter
        (fun p => compute_cache_key p.2 != "")).map (fun p => make_chunk_name p.1 p.2) ∧
    (main_result target num_chunks core_split es).matrix.map Prod.fst =
      ((chunks_of es num_chunks core_split).enum.filter (fun p => !p.2.isEmpty)).map
        (fun p => make_chunk_name p.1 p.2) ∧
    ((main_result target num_chunks core_split es).matrix.map Prod.fst).Nodup := by
  have hnames : ∀ (ps : List (Nat × List Element)),
      (matrix_entries ps).map Prod.fst =
        (ps.filter (fun p => !p.2.isEmpty)).map (fun p => make_chunk_name p.1 p.2) := by
    intro ps
    unfold matrix_entries
    rw [List.map_map]
    rfl
  have hcknames : ∀ (ps : List (Nat × List Element)),
      (cache_key_entries ps).map Prod.fst =
        ((ps.filter (fun p => !p.2.isEmpty)).filter (fun p => compute_cache_key p.2 != "")).map
          (fun p => make_chunk_name p.1 p.2) := by
    intro ps
    unfold cache_key_entries
    rw [List.map_map]
    rfl
  by_cases hes : es = []
  · subst hes
    rw [chunks_of_nil]
    refine ⟨rfl, rfl, List.Pairwise.nil⟩
  · have hmain : main_result target num_chunks core_split es =
        ⟨pyJoin " " ((core_elements es core_split).map Element.name),
         matrix_entries (chunks_of es num_chunks core_split).enum,
         cache_key_entries (chunks_of es num_chunks core_split).enum, target⟩ := by
      unfold main_result
      rw [if_neg hes, process_chunks_eq]
    rw [hmain]
    refine ⟨hcknames _, hnames _, ?_⟩
    show ((matrix_entries (chunks_of es num_chunks core_split).enum).map Prod.fst).Nodup
    rw [hnames]
    show List.Pairwise Ne ((List.filter (fun p => !p.2.isEmpty)
      (chunks_of es num_chunks core_split).enum).map (fun p => make_chunk_name p.1 p.2))
    rw [List.pairwise_map]
    exact (enum_pairwise_names _).sublist (List.filter_sublist _)

/-- C6: for `coreSplit ≥ 0` the core group is exactly the first `coreSplit`
elements in plan order, serialized as the space-joined string of their
names; the leaf group is exactly the rest; and when the filtered sequence
has fewer than `coreSplit` elements the whole sequence is core and the leaf
group is empty. -/
theorem c6_core_leaf_split (es : List Element) (target : String) (num_chunks core_split : Int)
    (h : 0 ≤ core_split) :
    core_elements es core_split = es.take core_split.toNat ∧
    leaf_elements es core_split = es.drop core_split.toNat ∧
    (main_result target num_chunks core_split es).core =
      pyJoin " " ((es.take core_split.toNat).map Element.name) ∧
    ((es.length : Int) < core_split →
      core_elements es core_split = es ∧ leaf_elements es core_split = []) := by
  have h1 : core_elements es core_split = es.take core_split.toNat := by
    unfold core_elements pyTake
    rw [if_pos h]
  have h2 : leaf_elements es core_split = es.drop core_split.toNat := by
    unfold leaf_elements pyDrop
    rw [if_pos h]
  refine ⟨h1, h2, ?_, ?_⟩
  · by_cases hes : es = []
    · subst hes
      rw [List.take_nil, List.map_nil]
      rfl
    · unfold main_result
      rw [if_neg hes, h1]
  · intro hlt
    have hlen : es.length ≤ core_split.toNat := by omega
    exact ⟨by rw [h1]; exact List.take_of_length_le hlen,
           by rw [h2]; exact List.drop_eq_nil_of_le hlen⟩

/-- C6 witness: the statement applied at the sample plan with
`coreSplit = 2`, including the fewer-than-`coreSplit` case at
`coreSplit = 9`. -/
theorem c6_witness : (0 : Int) ≤ 2 ∧
    core_elements sampleElems 2 = sampleElems.take (2 : Int).toNat ∧
    (0 : Int) ≤ 9 ∧ (sampleElems.length : Int) < 9 ∧ leaf_elements sampleElems 9 = [] :=
  ⟨by decide, (c6_core_leaf_split sampleElems "t" 3 2 (by decide)).1, by decide, by decide,
   ((c6_core_leaf_split sampleElems "t" 3 9 (by decide)).2.2.2 (by decide)).2⟩

/-- C7: the number of chunks produced is `min(N, |leaf group|)` when the
leaf group is non-empty and `N > 0`; zero chunks are produced when the leaf
group is empty or `N ≤ 0`; no produced chunk is empty; and the matrix holds
exactly one entry per produced chunk (the `if not chunk: continue` guard
never drops anything). -/
theorem c7_chunk_counts (es : List Element) (target : String) (num_chunks core_split : Int) :
    (leaf_elements es core_split ≠ [] → 0 < num_chunks →
      (chunks_of es num_chunks core_split).length =
        min num_chunks.toNat (leaf_elements es core_split).length) ∧
    (leaf_elements es core_split = [] ∨ num_chunks ≤ 0 →
      chunks_of es num_chunks core_split = []) ∧
    (∀ c ∈ chunks_of es num_chunks core_split, c ≠ []) ∧
    (main_result target num_chunks core_split es).matrix.length =
      (chunks_of es num_chunks core_split).length := by
  refine ⟨?_, ?_, chunks_of_all_ne_nil es num_chunks core_split, ?_⟩
  · intro hl hn
    unfold chunks_of
    rw [if_pos ⟨hl, hn⟩]
    unfold chunk_list
    rw [List.length_map, List.length_range]
    have hlpos : 0 < (leaf_elements es core_split).length := List.length_pos.mpr hl
    have hcast : ((leaf_elements es core_split).length : Int).toNat =
        (leaf_elements es core_split).length := Int.toNat_natCast _
    omega
  · intro hdeg
    have hneg : ¬(leaf_elements es core_split ≠ [] ∧ 0 < num_chunks) := by
      rcases hdeg with hdeg | hdeg
      · simp [hdeg]
      · rintro ⟨_, hpos⟩
        omega
    unfold chunks_of
    rw [if_neg hneg]
  · by_cases hes : es = []
    · subst hes
      rw [chunks_of_nil]
      rfl
    · have hmain : (main_result target num_chunks core_split es).matrix =
          matrix_entries (chunks_of es num_chunks core_split).enum := by
        unfold main_result
        rw [if_neg hes, process_chunks_eq]
      rw [hmain]
      unfold matrix_entries
      rw [List.length_map]
      have hall : ∀ p ∈ (chunks_of es num_chunks core_split).enum, (!p.2.isEmpty) = true := by
        intro p hp
        have hget := List.mem_enum_iff_getElem?.mp hp
        obtain ⟨hlt, heq⟩ := List.getElem?_eq_some.mp hget
        have hmem : p.2 ∈ chunks_of es num_chunks core_split := heq ▸ List.getElem_mem hlt
        have hne := chunks_of_all_ne_nil es num_chunks core_split p.2 hmem
        simp [List.isEmpty_iff, hne]
      rw [List.filter_eq_self.mpr hall, List.enum_length]

/-- C7 witness: the statement applied at the sample plan with
`coreSplit = 2`: for `N = 2` two chunks are produced, and for `N = 0` none
are. -/
theorem c7_witness : leaf_elements sampleElems 2 ≠ [] ∧ (0 : Int) < 2 ∧
    (chunks_of sampleElems 2 2).length =
      min (2 : Int).toNat (leaf_elements sampleElems 2).length ∧
    chunks_of sampleElems 0 2 = [] :=
  ⟨by decide, by decide, (c7_chunk_counts sampleElems "t" 2 2).1 (by decide) (by decide),
   (c7_chunk_counts sampleElems "t" 0 2).2.1 (Or.inr (by decide))⟩

/-- C8: when the filter stage yields zero elements, the output is exactly
`{core: "", matrix: {}, cache_keys: {}, final: <target>}` with the target
echoed unmodified; no chunking or keying logic runs. -/
theorem c8_degenerate (target : String) (num_chunks core_split : Int) (lines : List String)
    (h : (get_build_plan lines).1 = []) :
    full_pipeline target num_chunks core_split lines = ⟨"", [], [], target⟩ := by
  unfold full_pipeline
  rw [h]
  rfl

/-- C8 witness: a plan whose only element is cached filters to nothing and
produces the degenerate output. -/
theorem c8_witness : (get_build_plan ["x||cached||k"]).1 = [] ∧
    full_pipeline "tgt" 4 200 ["x||cached||k"] = ⟨"", [], [], "tgt"⟩ :=
  ⟨by decide, c8_degenerate "tgt" 4 200 ["x||cached||k"] (by decide)⟩

/-- C9 (corrected form): an input line with fewer than two `"||"`-separated
fields is skipped **silently** — the parsing loop drops it via `continue`
before the diagnostic-printing `except` branch, which no operation in the
loop body can trigger — processing continues with the remaining lines, and
no input ever produces a diagnostic. -/
theorem c9_malformed_skipped (line : String) (rest : List String)
    (h : (pySplit line "||").length < 2) :
    get_build_plan (line :: rest) = get_build_plan rest ∧
    (∀ ls, (get_build_plan ls).2 = []) := by
  have hall : ∀ l, (line_result l).2 = [] := by
    intro l
    unfold line_result
    by_cases hs : pyStrip l = ""
    · rw [if_pos hs]
    · rw [if_neg hs]
      by_cases hp : (pySplit l "||").length < 2
      · rw [if_pos hp]
      · rw [if_neg hp]
  have hdiag : ∀ ls : List String, ((ls.map (fun l => (line_result l).2)).flatten) = [] := by
    intro ls
    rw [List.map_congr_left (fun l _ => hall l)]
    induction ls with
    | nil => rfl
    | cons a as ih => simp [ih]
  constructor
  · have hline : line_result line = (none, []) := by
      unfold line_result
      by_cases hs : pyStrip line = ""
      · rw [if_pos hs]
      · rw [if_neg hs, if_pos h]
    unfold get_build_plan
    rw [List.filterMap_cons, hline]
    rw [hdiag, hdiag]
  · intro ls
    unfold get_build_plan
    exact hdiag ls

/-- C9 counterexample: the line `"abc"` has a single field, and processing
it yields no element and — against the claim's "skipped with a diagnostic
notice" — an empty diagnostics stream: the `except (ValueError, IndexError)`
handler holding the diagnostic print is unreachable. -/
theorem c9_counterexample :
    (get_build_plan ["abc"]).1 = [] ∧ (get_build_plan ["abc"]).2 = [] := by
  constructor
  · decide
  · decide

/-- C9 witness: the corrected statement applied to the malformed line
`"abc"` followed by a well-formed line, which is retained. -/
theorem c9_witness : (pySplit "abc" "||").length < 2 ∧
    get_build_plan ["abc", "x||waiting||k1"] = get_build_plan ["x||waiting||k1"] ∧
    (get_build_plan ["x||waiting||k1"]).1 = [⟨"x", "waiting", "k1"⟩] :=
  ⟨by decide, (c9_malformed_skipped "abc" ["x||waiting||k1"] (by decide)).1, by decide⟩
